import Mathlib

/-!
Verification development for the pharmiliar service-matching engine.

The Python sources are shallowly embedded over `List Char` (one character
per Python character; ASCII fragment of Python's unicode case/word-class
behaviour, which covers every string the program manipulates).  Prices are
embedded as rationals, scores as naturals, fallible operations as `Except`.
-/

namespace Pharmiliar

/-- Convert a Lean string literal to the character-list representation. -/
def cs (s : String) : List Char := s.data

/-- Python `str.lower` on one character (ASCII, like `Char.toLower`). -/
def lowChar (c : Char) : Char := c.toLower

/-- Python `str.lower` over a whole string. -/
def lowerL (s : List Char) : List Char := s.map lowChar

/-- The whitespace class of Python `str.split` / `str.strip` (ASCII part). -/
def pySpace (c : Char) : Bool :=
  c == ' ' || c == '\t' || c == '\n' || c == '\r' || c == '\x0b' || c == '\x0c'

/-- The word-character class of the regex `\w` (ASCII part). -/
def isWordChar (c : Char) : Bool := c.isAlphanum || c == '_'

/-- Decidable list-prefix test (Python/SQL comparisons are by equality of
characters, so a boolean structural recursion suffices). -/
def pfx : List Char → List Char → Bool
  | [], _ => true
  | _ :: _, [] => false
  | a :: as, b :: bs => a == b && pfx as bs

/-- Python's substring operator `needle in haystack` (contiguous occurrence;
the empty needle occurs in everything, as in Python). -/
def subIn (p : List Char) : List Char → Bool
  | [] => pfx p []
  | c :: t => pfx p (c :: t) || subIn p t

/-- Maximal runs of characters satisfying `p`; accumulator-based scanner
used for both `str.split()` and `re.findall(r"\w+", ...)`. -/
def splitRunsAux (p : Char → Bool) : List Char → List Char → List (List Char)
  | cur, [] => if cur.isEmpty then [] else [cur.reverse]
  | cur, c :: rest =>
      if p c then splitRunsAux p (c :: cur) rest
      else if cur.isEmpty then splitRunsAux p [] rest
      else cur.reverse :: splitRunsAux p [] rest

/-- Maximal runs of characters satisfying `p` inside `s`. -/
def splitRuns (p : Char → Bool) (s : List Char) : List (List Char) :=
  splitRunsAux p [] s

/-- Python `str.split()` with no argument: runs of non-whitespace. -/
def splitWS (s : List Char) : List (List Char) := splitRuns (fun c => !pySpace c) s

/-- Python `" ".join(parts)`. -/
def joinSpace : List (List Char) → List Char
  | [] => []
  | [x] => x
  | x :: y :: rest => x ++ ' ' :: joinSpace (y :: rest)

/-- Python `" ".join(text.split())`: collapse runs of whitespace. -/
def collapseWS (s : List Char) : List Char := joinSpace (splitWS s)

/-- Python `not text.strip()`: the string is empty or all whitespace. -/
def stripEmpty (s : List Char) : Bool := s.all pySpace

/-- Python `str.strip()`: drop leading and trailing whitespace. -/
def stripL (s : List Char) : List Char :=
  ((s.dropWhile pySpace).reverse.dropWhile pySpace).reverse

/-- Fuel-driven worker for `replaceAll`; the fuel (initially the length of
the subject) dominates the number of steps, since every step consumes at
least one subject character. -/
def replaceAllAux (old new : List Char) : Nat → List Char → List Char
  | 0, s => s
  | _ + 1, [] => []
  | fuel + 1, c :: rest =>
      if !old.isEmpty && pfx old (c :: rest) then
        new ++ replaceAllAux old new fuel ((c :: rest).drop old.length)
      else
        c :: replaceAllAux old new fuel rest

/-- Python `str.replace(old, new)` (and SQL `REPLACE`): replace every
non-overlapping occurrence of `old`, scanning left to right.  (The program
never calls it with an empty `old`.) -/
def replaceAll (old new s : List Char) : List Char :=
  replaceAllAux old new s.length s

/-- The synonym/standardisation table of `ServiceMapper._normalize_text`
(`service_mapper_final.py`), in Python dict insertion order. -/
def pyReplacements : List (List Char × List Char) :=
  [ (cs "xray", cs "x-ray"),
    (cs "x ray", cs "x-ray"),
    (cs "x-ray", cs "investigation x-ray"),
    (cs "ultra sound", cs "ultrasound"),
    (cs "cat scan", cs "ct scan"),
    (cs "cat-scan", cs "ct scan"),
    (cs "mri scan", cs "mri"),
    (cs "magnetic resonance", cs "mri"),
    (cs "chest", cs "investigation"),
    (cs "investigation investigation", cs "investigation") ]

/-- `ServiceMapper._normalize_text` of `service_mapper_final.py`: lowercase,
collapse whitespace, then apply each replacement in table order. -/
def normalize (text : List Char) : List Char :=
  if text = [] then []
  else pyReplacements.foldl (fun s p => replaceAll p.1 p.2 s) (collapseWS (lowerL text))

/-- First index of an occurrence of `p` in the subject (Python `str.find`
before the `-1` encoding). -/
def firstIdx (p : List Char) : List Char → Option Nat
  | [] => if pfx p [] then some 0 else none
  | c :: t => if pfx p (c :: t) then some 0 else (firstIdx p t).map (· + 1)

/-- Python `str.find`: first index of `p`, `-1` when absent. -/
def pyFind (p s : List Char) : Int :=
  match firstIdx p s with
  | some n => (n : Int)
  | none => -1

/-- Python `positions == sorted(positions)`: the list is nondecreasing. -/
def nonDecrI : List Int → Bool
  | [] => true
  | [_] => true
  | a :: b :: t => decide (a ≤ b) && nonDecrI (b :: t)

/-- Word-boundary test of the regex `\b` immediately before a character,
given the preceding subject character (`none` at the start of the subject). -/
def boundaryBefore : Option Char → Char → Bool
  | none, c => isWordChar c
  | some p, c => isWordChar p != isWordChar c

/-- Scanner for `re.search(rf"\b{re.escape(w)}", s)`: is there an occurrence
of `w` starting at a `\b` position?  (The program only calls this with a
non-empty `w`, a token produced by `str.split`.) -/
def sbAux (w : List Char) : Option Char → List Char → Bool
  | _, [] => false
  | prev, c :: rest =>
      (!w.isEmpty && pfx w (c :: rest) && boundaryBefore prev c) || sbAux w (some c) rest

/-- `re.search(rf"\b{re.escape(w)}", s)` as a boolean. -/
def searchBoundary (w s : List Char) : Bool := sbAux w none s

/-- Deduplicate keeping the first occurrence of each element, as SQL
`SELECT DISTINCT` and Python insertion-ordered sets do. -/
def firstDedupAux {α : Type} [DecidableEq α] (seen : List α) : List α → List α
  | [] => []
  | a :: rest => if a ∈ seen then firstDedupAux seen rest else a :: firstDedupAux (a :: seen) rest

/-- Deduplicate a list keeping first occurrences. -/
def firstDedup {α : Type} [DecidableEq α] (l : List α) : List α := firstDedupAux [] l

/-- Suffix of the subject strictly after the first occurrence of `p`
(`none` when `p` does not occur). -/
def dropAfterFirst (p : List Char) : List Char → Option (List Char)
  | [] => if pfx p [] then some [] else none
  | c :: t => if pfx p (c :: t) then some ((c :: t).drop p.length) else dropAfterFirst p t

/-- Matcher for an SQL `LIKE` pattern of the shape `%p1%p2%...%pn%`: the
literal parts must occur in order (leftmost-greedy search, which is complete
for this pattern shape). -/
def likeParts : List (List Char) → List Char → Bool
  | [], _ => true
  | p :: ps, s =>
      match dropAfterFirst p s with
      | none => false
      | some rest => likeParts ps rest

/-- A row of the `services` table: `{description, category, code, base_price,
max_price}`.  `max_price` may be SQL `NULL`; descriptions of rows the
program touches are non-`NULL` (the queries filter on `IS NOT NULL`). -/
structure SvcRow where
  description : List Char
  category : List Char
  code : List Char
  base_price : ℚ
  max_price : Option ℚ
deriving DecidableEq

/-- A result record built by `find_services`: `max_price or base_price`
resolves a `NULL` (or falsy `0`) max price to the base price. -/
structure SvcOut where
  description : List Char
  category : List Char
  code : List Char
  base_price : ℚ
  max_price : ℚ
deriving DecidableEq

/-- Build the result record of a row (the dict literal in `find_services`). -/
def toOut (r : SvcRow) : SvcOut :=
  { description := r.description
    category := r.category
    code := r.code
    base_price := r.base_price
    max_price :=
      match r.max_price with
      | none => r.base_price
      | some m => if m = 0 then r.base_price else m }

/-- `ServiceMapper._score_match` of `service_mapper_final.py`: additive
integer score of a description against a search term, both normalized. -/
def score_match (description search_term : List Char) : ℕ :=
  if description = [] ∨ search_term = [] then 0
  else
    let d := normalize description
    let t := normalize search_term
    let ws := splitWS t
    (if subIn t d then 100 else 0) +
    (if ws.all (fun w => subIn w d) then
        (if nonDecrI (ws.map (fun w => pyFind w d)) then 75 else 50)
      else 0) +
    ((ws.map (fun w =>
        if subIn w d then (if searchBoundary w d then 20 else 10) else 0)).sum) +
    (if (splitWS d).length ≤ ws.length + 2 then 25 else 0)

/-- Claimed component: +100 when the full normalized term appears verbatim
in the normalized description. -/
def phraseBonus (d t : List Char) : ℕ := if subIn t d then 100 else 0

/-- Claimed component: +75 when all term tokens appear in the description
with their first occurrences in nondecreasing order, +50 when all appear
but out of order; 0 when some token is absent. -/
def orderBonus (d t : List Char) : ℕ :=
  let ws := splitWS t
  if ws.all (fun w => subIn w d) then
    (if nonDecrI (ws.map (fun w => pyFind w d)) then 75 else 50)
  else 0

/-- Per-token bonuses: +20 for a token matched at a word boundary, +10 for
a token matched only mid-word, for every token that occurs. -/
def tokenBonusAll (d t : List Char) : ℕ :=
  ((splitWS t).map (fun w =>
      if subIn w d then (if searchBoundary w d then 20 else 10) else 0)).sum

/-- Claimed component: +25 when the description has at most two more words
than the term. -/
def precisionBonus (d t : List Char) : ℕ :=
  if (splitWS d).length ≤ (splitWS t).length + 2 then 25 else 0

/-- The claim's reading of the per-token bonuses: counted only when the
phrase/order bonuses did not already count the tokens. -/
def claimTokenBonus (d t : List Char) : ℕ :=
  if phraseBonus d t ≠ 0 ∨ orderBonus d t ≠ 0 then 0 else tokenBonusAll d t

/-- The score C1 claims `_score_match` computes: the component sum with the
per-token bonuses suppressed once the phrase/order bonuses fire. -/
def claimScore (description term : List Char) : ℕ :=
  phraseBonus (normalize description) (normalize term) +
  orderBonus (normalize description) (normalize term) +
  claimTokenBonus (normalize description) (normalize term) +
  precisionBonus (normalize description) (normalize term)

/-- The category resolution of both mappers: the UI category `"Radiology"`
targets the `RADIOLOGY` catalog category, everything else `GENERAL`. -/
def resolveCat (category : List Char) : List Char :=
  if category = cs "Radiology" then cs "RADIOLOGY" else cs "GENERAL"

/-- Ordering key of `scored_results.sort(key=lambda x: (-x[0], x[1]["base_price"]))`:
higher score first, then ascending base price. -/
def pairRel (a b : ℕ × SvcOut) : Prop :=
  b.1 < a.1 ∨ (a.1 = b.1 ∧ a.2.base_price ≤ b.2.base_price)

instance : DecidableRel pairRel := fun _ _ =>
  inferInstanceAs (Decidable (_ ∨ _))

instance : IsTotal (ℕ × SvcOut) pairRel := by
  constructor
  intro a b
  rcases lt_trichotomy a.1 b.1 with h | h | h
  · exact Or.inr (Or.inl h)
  · rcases le_total a.2.base_price b.2.base_price with hp | hp
    · exact Or.inl (Or.inr ⟨h, hp⟩)
    · exact Or.inr (Or.inr ⟨h.symm, hp⟩)
  · exact Or.inl (Or.inl h)

instance : IsTrans (ℕ × SvcOut) pairRel := by
  constructor
  intro a b c hab hbc
  rcases hab with h1 | ⟨h1, hp1⟩
  · rcases hbc with h2 | ⟨h2, _⟩
    · exact Or.inl (lt_trans h2 h1)
    · exact Or.inl (h2 ▸ h1)
  · rcases hbc with h2 | ⟨h2, hp2⟩
    · exact Or.inl (h1 ▸ h2)
    · exact Or.inr ⟨h1.trans h2, hp1.trans hp2⟩

/-- The shared tail of both `find_services` variants: keep positively scored
rows, sort by descending score then ascending base price, return the first
ten result records. -/
def rankScored (scorer : SvcRow → ℕ) (results : List SvcRow) : List SvcOut :=
  let scored := results.filterMap (fun r =>
    let sc := scorer r
    if 0 < sc then some (sc, toOut r) else none)
  ((List.insertionSort pairRel scored).take 10).map Prod.snd

/-- Ascending base price, the `ORDER BY base_price ASC` of the empty-term
query (ties resolved stably in table order). -/
def priceRel (a b : SvcRow) : Prop := a.base_price ≤ b.base_price

instance : DecidableRel priceRel := fun _ _ =>
  inferInstanceAs (Decidable (_ ≤ _))

instance : IsTotal SvcRow priceRel := ⟨fun a b => le_total a.base_price b.base_price⟩

instance : IsTrans SvcRow priceRel := ⟨fun _ _ _ h1 h2 => le_trans h1 h2⟩

/-- The searchable rows of the resolved category (`category = ?`,
`description IS NOT NULL`, `base_price > 0`). -/
def searchableIn (rows : List SvcRow) (category : List Char) : List SvcRow :=
  rows.filter (fun r => decide (r.category = resolveCat category) && decide (0 < r.base_price))

/-- The empty-term query of `find_services` (`service_mapper_final.py`):
the ten cheapest searchable rows of the resolved category. -/
def emptyTermFetch (rows : List SvcRow) (category : List Char) : List SvcRow :=
  (List.insertionSort priceRel (searchableIn rows category)).take 10

/-- The `%`-separated literal parts of the pattern
`f"%{' '.join(['%' + w + '%' for w in words])}%"`: the words with a single
space between consecutive words. -/
def seqParts : List (List Char) → List (List Char)
  | [] => []
  | [w] => [w]
  | w :: v :: rest => w :: cs " " :: seqParts (v :: rest)

/-- The term-driven query of `find_services` (`service_mapper_final.py`):
searchable rows whose lowered description or code matches one of the four
`LIKE` patterns built from the normalized term `nt`. -/
def candidateFetch (rows : List SvcRow) (category nt : List Char) : List SvcRow :=
  let ws := splitWS nt
  (searchableIn rows category).filter (fun r =>
    subIn nt (lowerL r.description) ||
    subIn nt (lowerL r.code) ||
    likeParts (seqParts ws) (lowerL r.description) ||
    likeParts (seqParts ws.reverse) (lowerL r.description))

/-- `ServiceMapper.find_services` of `service_mapper_final.py`.  Both the
empty-term branch and the term branch fall through to the same scoring and
ranking loop; in the empty-term branch the term is still the raw term, in
the other branch it has been normalized. -/
def find_services (rows : List SvcRow) (category term : List Char) : List SvcOut :=
  if stripEmpty term then
    rankScored (fun r => score_match r.description term) (emptyTermFetch rows category)
  else
    rankScored (fun r => score_match r.description (normalize term))
      (candidateFetch rows category (normalize term))

/-! The cost predictor's tier resolver (`cost_predictor_v4.py`). -/

/-- The SQL `REPLACE(REPLACE(REPLACE(description,'-K',''),'-Nk',''),'-P','')`
of `find_matching_services`: strip tier suffixes (SQL `REPLACE` is
case-sensitive). -/
def stripTiers (d : List Char) : List Char :=
  replaceAll (cs "-P") [] (replaceAll (cs "-Nk") [] (replaceAll (cs "-K") [] d))

/-- The base-description query of `find_matching_services`: distinct
`(stripped description, category)` pairs of priced rows whose lowered
description contains the lowered term. -/
def baseServicesFor (rows : List SvcRow) (term : List Char) : List (List Char × List Char) :=
  firstDedup ((rows.filter (fun r =>
    subIn (lowerL term) (lowerL r.description) && decide (0 < r.base_price))).map
      (fun r => (stripTiers r.description, r.category)))

/-- SQL `description LIKE '<p>%'`: case-insensitive literal prefix. -/
def likePrefixCI (p s : List Char) : Bool := pfx (lowerL p) (lowerL s)

/-- The per-tier query (`description LIKE f"{base_desc}{tier}%" ... LIMIT 1`):
the first priced row whose description starts with the base description
followed by the tier suffix. -/
def tierLookup (rows : List SvcRow) (baseDesc tier : List Char) : Option SvcRow :=
  (rows.filter (fun r =>
    likePrefixCI (baseDesc ++ tier) r.description && decide (0 < r.base_price))).head?

/-- The tier suffixes probed by `find_matching_services`, in loop order. -/
def tierNames : List (List Char) := [cs "-K", cs "-Nk", cs "-P"]

/-- A match of `find_matching_services`: a base description, its category,
and the pricing tiers that actually exist (tier name paired with the row). -/
structure TierMatch where
  base_description : List Char
  category : List Char
  tiers : List (List Char × SvcRow)
deriving DecidableEq

/-- The tiers found for one base description (`tier.strip('-')` names). -/
def tiersFor (rows : List SvcRow) (baseDesc : List Char) : List (List Char × SvcRow) :=
  tierNames.filterMap (fun t => (tierLookup rows baseDesc t).map (fun r => (t.drop 1, r)))

/-- One candidate of `find_matching_services`: kept only when at least one
pricing tier exists. -/
def mkMatch (rows : List SvcRow) (bc : List Char × List Char) : Option TierMatch :=
  let ts := tiersFor rows bc.1
  if ts.isEmpty then none else some ⟨bc.1, bc.2, ts⟩

/-- Concatenation of the images of `f`, in order. -/
def concatMapL {α β : Type} (f : α → List β) : List α → List β
  | [] => []
  | a :: t => f a ++ concatMapL f t

/-- `CostPredictor.find_matching_services` of `cost_predictor_v4.py`. -/
def find_matching_services (rows : List SvcRow) (terms : List (List Char)) : List TierMatch :=
  concatMapL (fun term => (baseServicesFor rows term).filterMap (mkMatch rows)) terms

/-- The price-range computation of `estimate_costs` on one match:
`min(tier_prices), max(tier_prices)` over the tiers that exist, `none`
when no tier was found (the `if tier_prices:` guard). -/
def matchMinMax (m : TierMatch) : Option (ℚ × ℚ) :=
  match m.tiers.map (fun t => t.2.base_price) with
  | [] => none
  | p :: ps => some (ps.foldl min p, ps.foldl max p)

/-! The approximate query cache of `ai_service_mapper_v4.py`. -/

/-- `set(re.findall(r"\w+", s.lower()))`: the word-token set of a string. -/
def tokenSet (s : List Char) : Finset (List Char) :=
  (splitRuns isWordChar (lowerL s)).toFinset

/-- Jaccard similarity of two token sets, as the exact integer quotient
`|intersection| / |union|` (the zero-denominator case is modelled as an
explicit error in the loop below, as Python raises `ZeroDivisionError`;
Python's float arithmetic is modelled by exact rationals). -/
def simQ (qs ks : Finset (List Char)) : ℚ :=
  Rat.divInt ((qs ∩ ks).card : ℤ) ((qs ∪ ks).card : ℤ)

/-- The similarity threshold `best_score = 0.5`. -/
def simThreshold : ℚ := mkRat 1 2

/-- The loop of `_find_similar_query`: fold over the cached keys carrying
the best score (initially the 0.5 threshold) and the best key; a key whose
token set together with the query's is empty raises (division by zero). -/
def findSimilarLoop {α : Type} (qs : Finset (List Char)) :
    List (List Char × α) → ℚ → Option (List Char) → Except Unit (Option (List Char))
  | [], _, best => .ok best
  | (k, _) :: rest, bs, best =>
      let ks := tokenSet k
      if qs ∪ ks = ∅ then .error ()
      else if bs < simQ qs ks then findSimilarLoop qs rest (simQ qs ks) (some k)
      else findSimilarLoop qs rest bs best

/-- `AIServiceMapper._find_similar_query`: best cached key by Jaccard
similarity over the 0.5 threshold, `none` when every key scores at most
0.5, error on an unguarded zero division. -/
def findSimilarQuery {α : Type} (cache : List (List Char × α)) (q : List Char) :
    Except Unit (Option (List Char)) :=
  findSimilarLoop (tokenSet q) cache simThreshold none

/-- Association-list lookup (a Python dict holds one value per key). -/
def lookupL {α : Type} : List (List Char × α) → List Char → Option α
  | [], _ => none
  | (k, v) :: t, q => if k = q then some v else lookupL t q

/-- The cache-consultation part of `_analyze_query`: exact match on the raw
query first, then the similarity search; `if cached_query:` also treats an
empty-string key as a miss.  `ok none` means the cache missed and the
external call would be made next. -/
def analyzeQueryCached {α : Type} (cache : List (List Char × α)) (q : List Char) :
    Except Unit (Option α) :=
  match (if (lookupL cache q).isSome then Except.ok (some q) else findSimilarQuery cache q) with
  | .error e => .error e
  | .ok none => .ok none
  | .ok (some k) => .ok (if k = [] then none else lookupL cache k)

/-- Modelled from the spec: the cache `get` that claim C2 describes — an
exact match on `normalize(query)` first, then the Jaccard similarity search
over the cached keys with the 0.5 threshold. -/
def specNormalizedGet {α : Type} (cache : List (List Char × α)) (q : List Char) : Option α :=
  match lookupL cache (normalize q) with
  | some a => some a
  | none =>
      match findSimilarLoop (tokenSet q) cache simThreshold none with
      | .ok (some k) => lookupL cache k
      | _ => none

/-! The relationship graph of `ai_service_mapper_v4.py`. -/

/-- One service entry of an analysis-cache group: its code and, when the
`related_codes` key is present, the related codes. -/
structure SvcEntry where
  service_code : List Char
  related_codes : Option (List (List Char))
deriving DecidableEq

/-- One step of the code collection of `_build_relationships`: add the
entry's own code and any related codes. -/
def entryCodes (acc : Finset (List Char)) (s : SvcEntry) : Finset (List Char) :=
  insert s.service_code acc ∪
    (match s.related_codes with
     | some rcs => rcs.toFinset
     | none => ∅)

/-- All codes collected from one analysis-cache group. -/
def groupCodes (g : List SvcEntry) : Finset (List Char) := g.foldl entryCodes ∅

/-- The bidirectional edges one group contributes: every ordered pair of
distinct collected codes. -/
def groupPairs (g : List SvcEntry) : Finset (List Char × List Char) :=
  (groupCodes g ×ˢ groupCodes g).filter (fun p => p.1 ≠ p.2)

/-- Inserting one group's edges into the adjacency (sets absorb
duplicates). -/
def buildStep (R : Finset (List Char × List Char)) (g : List SvcEntry) :
    Finset (List Char × List Char) :=
  R ∪ groupPairs g

/-- `AIServiceMapper._build_relationships`: the edge set built by replaying
every analysis-cache group. -/
def buildRelationships (cache : List (List SvcEntry)) : Finset (List Char × List Char) :=
  cache.foldl buildStep ∅

/-! The v4 search pipeline (`ai_service_mapper_v4.py`), over the matcher of
`service_mapper_final2.py` that it imports. -/

/-- The structured analysis the external collaborator contract promises
(`{category, service_type, search_terms, context, priority}`). -/
structure Analysis where
  category : List Char
  service_type : List Char
  search_terms : List (List Char)
  context : List Char
  priority : Option (List Char)
deriving DecidableEq

/-- The deterministic fallback analysis `_analyze_query` substitutes when
the external call raises. -/
def fallbackAnalysis : Analysis :=
  { category := cs "General"
    service_type := cs "consultation"
    search_terms := [cs "consultation", cs "examination"]
    context := cs "General medical consultation"
    priority := some (cs "routine") }

/-- `AIServiceMapper._analyze_query`: cache consultation first; on a miss
the external call's outcome is used, with the fallback analysis substituted
when that call raises.  Only the unguarded similarity search can make this
raise. -/
def analyzeQueryE (cache : List (List Char × Analysis)) (q : List Char)
    (collab : Except Unit Analysis) : Except Unit Analysis :=
  match analyzeQueryCached cache q with
  | .error e => .error e
  | .ok (some a) => .ok a
  | .ok none =>
      match collab with
      | .ok a => .ok a
      | .error _ => .ok fallbackAnalysis

/-- `ServiceMapper._score_match` of `service_mapper_final2.py` (no
normalization here, only lowercasing; the code participates too). -/
def score_match2 (description code search_term : List Char) : ℕ :=
  if description = [] then 0
  else
    let d := lowerL description
    let c := lowerL code
    let t := lowerL search_term
    (if subIn t d then 100 else 0) +
    (if subIn t c then 50 else 0) +
    ((splitWS t).map (fun w =>
        (if subIn w d then 20 else 0) + (if subIn w c then 10 else 0))).sum

/-- `ServiceMapper.find_services` of `service_mapper_final2.py`: an x-ray
special case querying `RADIOLOGY` with fixed patterns, otherwise a plain
substring query in the resolved category; then the shared scoring tail. -/
def find_services2 (rows : List SvcRow) (category term : List Char) : List SvcOut :=
  let st := stripL (lowerL term)
  let results :=
    if subIn (cs "x-ray") st || subIn (cs "xray") st then
      let location := stripL (replaceAll (cs "xray") [] (replaceAll (cs "x-ray") [] st))
      firstDedup (rows.filter (fun r =>
        decide (r.category = cs "RADIOLOGY") && decide (0 < r.base_price) &&
        (subIn (cs "x-ray") (lowerL r.description) ||
         subIn (cs "investigation") (lowerL r.description) ||
         subIn (cs "xr") (lowerL r.code) ||
         (location.isEmpty || subIn location (lowerL r.description)))))
    else
      firstDedup (rows.filter (fun r =>
        decide (r.category = resolveCat category) && decide (0 < r.base_price) &&
        (subIn st (lowerL r.description) || subIn st (lowerL r.code))))
  rankScored (fun r => score_match2 r.description r.code st) results

/-- The keyword triggers that make `search` add chest-related terms. -/
def lungTriggers : List (List Char) :=
  [cs "lung", cs "chest", cs "breathing", cs "smoking", cs "cancer"]

/-- The chest-related terms `search` adds on a trigger. -/
def lungTerms : List (List Char) :=
  [cs "chest x-ray", cs "chest xray", cs "ct scan chest", cs "ct scan",
   cs "x-ray chest", cs "consultation", cs "examination"]

/-- `set.update` modelled on insertion-ordered lists: append the members of
`new` that are not yet present. -/
def dedupAppend (l new : List (List Char)) : List (List Char) :=
  new.foldl (fun acc t => if t ∈ acc then acc else acc ++ [t]) l

/-- The search-term collection of `search`: the analysis terms, the
chest-related additions, then terms of cached analyses triggered by the
lowered query. -/
def buildSearchTerms (analysis : Analysis) (predCache : List (List Char × Analysis))
    (queryLower : List Char) : List (List Char) :=
  let s0 := firstDedup analysis.search_terms
  let s1 :=
    if lungTriggers.any (fun t => subIn t queryLower) then dedupAppend s0 lungTerms else s0
  predCache.foldl (fun acc kv =>
    if kv.2.search_terms.any (fun t => subIn t queryLower) then
      dedupAppend acc kv.2.search_terms
    else acc) s1

/-- The category override `service["category"] = category` in `search`. -/
def withCategory (s : SvcOut) (cat : List Char) : SvcOut := { s with category := cat }

/-- Appending found services not yet seen (dedup by `code`), with the
category override. -/
def addUnseen (acc : List SvcOut) (cat : List Char) (found : List SvcOut) : List SvcOut :=
  found.foldl (fun acc s =>
    if acc.any (fun x => decide (x.code = s.code)) then acc
    else acc ++ [withCategory s cat]) acc

/-- The nested category × term collection loop of `search`. -/
def collectServices (rows : List SvcRow) (categories terms : List (List Char)) : List SvcOut :=
  categories.foldl (fun acc cat =>
    terms.foldl (fun acc t => addUnseen acc cat (find_services2 rows cat t)) acc) []

/-- The broader fallback terms `search` tries when nothing was found. -/
def broadTerms : List (List Char) := [cs "consultation", cs "examination", cs "medical exam"]

/-- Lexicographic order on the sort key `(category match, term match,
base price)` of `search`. -/
def le3 (x y : ℤ × ℤ × ℚ) : Prop :=
  x.1 < y.1 ∨ (x.1 = y.1 ∧ (x.2.1 < y.2.1 ∨ (x.2.1 = y.2.1 ∧ x.2.2 ≤ y.2.2)))

instance (x y : ℤ × ℤ × ℚ) : Decidable (le3 x y) := by
  unfold le3
  exact inferInstance

/-- The sort key of `search` (`-1` sorts before `0`). -/
def svcKey (analysisCat : List Char) (terms : List (List Char)) (x : SvcOut) : ℤ × ℤ × ℚ :=
  ((if x.category = analysisCat then -1 else 0 : ℤ),
   (if terms.any (fun t => subIn (lowerL t) (lowerL x.description)) then -1 else 0 : ℤ),
   x.base_price)

/-- The sort relation of `search`'s final `all_services.sort`. -/
def keyRel (analysisCat : List Char) (terms : List (List Char)) (a b : SvcOut) : Prop :=
  le3 (svcKey analysisCat terms a) (svcKey analysisCat terms b)

instance (analysisCat : List Char) (terms : List (List Char)) :
    DecidableRel (keyRel analysisCat terms) := fun a b => by
  unfold keyRel
  exact inferInstance

/-- The `related` edges leaving `c` in the relationship adjacency. -/
def relatedOf (rel : Finset (List Char × List Char)) (c : List Char) : Finset (List Char) :=
  (rel.filter (fun p => p.1 = c)).image Prod.snd

/-- The union of related codes of all result services
(`_get_related_services` before its lookup loop). -/
def relatedUnion (rel : Finset (List Char × List Char)) (codes : List (List Char)) :
    Finset (List Char) :=
  codes.foldl (fun acc c => acc ∪ relatedOf rel c) ∅

/-- `AIServiceMapper._get_recommendations`.  When any related code exists,
the lookup loop calls `self.service_mapper.find_services_by_code`, a method
that exists nowhere in the repository, so Python raises `AttributeError`
(modelled as the error case).  Otherwise the second external call's outcome
is returned, with the fixed apology string substituted when it raises. -/
def getRecommendations (rel : Finset (List Char × List Char)) (services : List SvcOut)
    (collabRec : Except Unit (List Char)) : Except Unit (List Char) :=
  if services = [] then .ok (cs "No services found matching your query.")
  else if relatedUnion rel (services.map (fun s => s.code)) = ∅ then
    match collabRec with
    | .ok s => .ok s
    | .error _ => .ok (cs "Unable to generate recommendations at this time.")
  else .error ()

/-- `AIServiceMapper.search`: analysis (cache, external call or fallback),
term collection, category-ordered matching with dedup by code, broader
search when empty, final sort, recommendations.  `collabA` and `collabRec`
are the outcomes the two external calls would have; `rel` is the
relationship adjacency built at start-up. -/
def searchModel (predCache : List (List Char × Analysis))
    (rel : Finset (List Char × List Char)) (rows : List SvcRow)
    (collabA : Except Unit Analysis) (collabRec : Except Unit (List Char))
    (query : List Char) : Except Unit (List SvcOut × List Char) :=
  let queryLower := lowerL query
  match analyzeQueryE predCache query collabA with
  | .error e => .error e
  | .ok analysis =>
      let terms := buildSearchTerms analysis predCache queryLower
      let categories :=
        if analysis.category = cs "Radiology" then [cs "RADIOLOGY", cs "GENERAL"]
        else [cs "GENERAL", cs "RADIOLOGY"]
      let services0 := collectServices rows categories terms
      let services :=
        if services0 = [] then collectServices rows [cs "GENERAL"] broadTerms else services0
      let sorted := List.insertionSort (keyRel analysis.category terms) services
      match getRecommendations rel sorted collabRec with
      | .error e => .error e
      | .ok recTxt => .ok (sorted, recTxt)

instance {ε β : Type} [DecidableEq ε] [DecidableEq β] : DecidableEq (Except ε β) :=
  fun a b =>
    match a, b with
    | .ok x, .ok y =>
        if h : x = y then isTrue (by rw [h]) else isFalse (fun hh => h (Except.ok.inj hh))
    | .error x, .error y =>
        if h : x = y then isTrue (by rw [h]) else isFalse (fun hh => h (Except.error.inj hh))
    | .ok _, .error _ => isFalse (fun hh => Except.noConfusion hh)
    | .error _, .ok _ => isFalse (fun hh => Except.noConfusion hh)

/-! Concrete data used by witnesses and counterexamples. -/

/-- A searchable general-category consultation row. -/
def exConsult : SvcRow :=
  { description := cs "Consultation Adult", category := cs "GENERAL"
    code := cs "AC001", base_price := 150, max_price := none }

/-- A searchable general-category row with a five-word description, so
that an unrelated one-word term scores zero against it (the precision
bonus does not apply). -/
def exLong : SvcRow :=
  { description := cs "General Outpatient Review Session Extended", category := cs "GENERAL"
    code := cs "GX42", base_price := 100, max_price := none }

/-- A searchable radiology row. -/
def exChestXray : SvcRow :=
  { description := cs "Chest X-ray", category := cs "RADIOLOGY"
    code := cs "XR1020", base_price := 500, max_price := none }

/-- A two-row catalog. -/
def exRows : List SvcRow := [exChestXray, exConsult]

/-- The `BT-K` tier variant of the claim C4 example (price 200). -/
def btRowK : SvcRow :=
  { description := cs "Blood Test-K", category := cs "LAB"
    code := cs "BT-K", base_price := 200, max_price := none }

/-- The `BT-Nk` tier variant of the claim C4 example (price 350). -/
def btRowNk : SvcRow :=
  { description := cs "Blood Test-Nk", category := cs "LAB"
    code := cs "BT-Nk", base_price := 350, max_price := none }

/-- The two-variant catalog of the claim C4 example. -/
def btRows : List SvcRow := [btRowK, btRowNk]

/-- The match `find_matching_services` produces on `btRows`. -/
def btMatch : TierMatch :=
  { base_description := cs "Blood Test", category := cs "LAB"
    tiers := [(cs "K", btRowK), (cs "Nk", btRowNk)] }

/-! Generic facts about the shared ranking tail. -/

/-- Every record returned by the ranking tail comes from an input row with
a positive score. -/
lemma mem_rankScored {scorer : SvcRow → ℕ} {results : List SvcRow} {x : SvcOut}
    (hx : x ∈ rankScored scorer results) :
    ∃ r ∈ results, x = toOut r ∧ 0 < scorer r := by
  unfold rankScored at hx
  rcases List.mem_map.mp hx with ⟨p, hp, rfl⟩
  have hp2 : p ∈ results.filterMap (fun r =>
      let sc := scorer r
      if 0 < sc then some (sc, toOut r) else none) :=
    (List.perm_insertionSort pairRel _).subset (List.take_subset _ _ hp)
  rcases List.mem_filterMap.mp hp2 with ⟨r, hr, heq⟩
  by_cases h : 0 < scorer r
  · rw [if_pos h] at heq
    cases heq
    exact ⟨r, hr, rfl, h⟩
  · rw [if_neg h] at heq
    cases heq

/-- The ranking tail returns at most ten records. -/
lemma rankScored_length (scorer : SvcRow → ℕ) (results : List SvcRow) :
    (rankScored scorer results).length ≤ 10 := by
  unfold rankScored
  rw [List.length_map]
  exact List.length_take_le _ _

/-- The ranking tail is ordered by strictly descending score with ties
broken by ascending base price, for any reading `f` of the score off the
returned record that agrees with the scorer. -/
lemma rankScored_pairwise (f : SvcOut → ℕ) (scorer : SvcRow → ℕ)
    (hcomp : ∀ r, scorer r = f (toOut r)) (results : List SvcRow) :
    (rankScored scorer results).Pairwise
      (fun x y => f y < f x ∨ (f x = f y ∧ x.base_price ≤ y.base_price)) := by
  unfold rankScored
  have hsorted : (List.insertionSort pairRel (results.filterMap (fun r =>
      let sc := scorer r
      if 0 < sc then some (sc, toOut r) else none))).Pairwise pairRel :=
    List.sorted_insertionSort pairRel _
  have htake := hsorted.sublist (List.take_sublist 10 _)
  have hmem : ∀ p ∈ (List.insertionSort pairRel (results.filterMap (fun r =>
      let sc := scorer r
      if 0 < sc then some (sc, toOut r) else none))).take 10, p.1 = f p.2 := by
    intro p hp
    have hp2 := (List.perm_insertionSort pairRel _).subset (List.take_subset _ _ hp)
    rcases List.mem_filterMap.mp hp2 with ⟨r, _, heq⟩
    by_cases h : 0 < scorer r
    · rw [if_pos h] at heq
      cases heq
      exact hcomp r
    · rw [if_neg h] at heq
      cases heq
  rw [List.pairwise_map]
  refine htake.imp_of_mem ?_
  intro a b ha hb hab
  rcases hab with h | ⟨h, hpr⟩
  · exact Or.inl (by rw [← hmem a ha, ← hmem b hb]; exact h)
  · exact Or.inr ⟨by rw [← hmem a ha, ← hmem b hb]; exact h, hpr⟩

/-- When every input row scores zero, the ranking tail is empty. -/
lemma rankScored_eq_nil {scorer : SvcRow → ℕ} {results : List SvcRow}
    (h : ∀ r ∈ results, scorer r = 0) : rankScored scorer results = [] := by
  unfold rankScored
  have : results.filterMap (fun r =>
      let sc := scorer r
      if 0 < sc then some (sc, toOut r) else none) = [] := by
    rw [List.filterMap_eq_nil_iff]
    intro r hr
    rw [h r hr]
    rfl
  rw [this]
  rfl

/-! C1 — the additive scoring formula. -/

/-- C1 counterexample: on description `"malaria test"` and term `"malaria"`
`_score_match` returns 220 (the per-token boundary bonus is added although
the phrase and order bonuses already fired), while the claimed sum with the
per-token bonuses suppressed is 200. -/
theorem score_match_claim_false :
    score_match (cs "malaria test") (cs "malaria") = 220 ∧
    claimScore (cs "malaria test") (cs "malaria") = 200 := by
  constructor
  · decide
  · decide

/-- C1 amended: for every non-empty description and non-empty term, the
score of `_score_match` is exactly the sum of the phrase bonus, the order
bonus, the per-token bonuses (counted for every matched token, regardless
of the phrase/order bonuses) and the precision bonus, all computed on the
normalized texts. -/
theorem score_match_components (d t : List Char) (hd : d ≠ []) (ht : t ≠ []) :
    score_match d t =
      phraseBonus (normalize d) (normalize t) +
      orderBonus (normalize d) (normalize t) +
      tokenBonusAll (normalize d) (normalize t) +
      precisionBonus (normalize d) (normalize t) := by
  unfold score_match phraseBonus orderBonus tokenBonusAll precisionBonus
  rw [if_neg (by simp [hd, ht])]

/-- C1 witness: the amended decomposition evaluated at a concrete
description and term. -/
theorem score_match_components_witness :
    score_match (cs "malaria smear") (cs "malaria") =
      phraseBonus (normalize (cs "malaria smear")) (normalize (cs "malaria")) +
      orderBonus (normalize (cs "malaria smear")) (normalize (cs "malaria")) +
      tokenBonusAll (normalize (cs "malaria smear")) (normalize (cs "malaria")) +
      precisionBonus (normalize (cs "malaria smear")) (normalize (cs "malaria")) :=
  score_match_components (cs "malaria smear") (cs "malaria") (by decide) (by decide)

/-! C5 — ranking order and size of `find_services`. -/

/-- C5: for every catalog, category and search term that is not all
whitespace, `find_services` returns at most ten candidates, ordered by
strictly descending score with ties broken by ascending base price (the
score of a returned record is its description scored against the
normalized term). -/
theorem find_services_ranking (rows : List SvcRow) (category term : List Char)
    (h : stripEmpty term = false) :
    (find_services rows category term).length ≤ 10 ∧
    (find_services rows category term).Pairwise (fun x y =>
      score_match y.description (normalize term) < score_match x.description (normalize term) ∨
      (score_match x.description (normalize term) = score_match y.description (normalize term) ∧
        x.base_price ≤ y.base_price)) := by
  unfold find_services
  rw [if_neg (by simp [h])]
  exact ⟨rankScored_length _ _,
    rankScored_pairwise (fun x => score_match x.description (normalize term)) _
      (fun r => rfl) _⟩

/-- C5 witness: the ranking property evaluated on a concrete catalog,
category and term. -/
theorem find_services_ranking_witness :
    (find_services exRows (cs "General") (cs "consultation")).length ≤ 10 ∧
    (find_services exRows (cs "General") (cs "consultation")).Pairwise (fun x y =>
      score_match y.description (normalize (cs "consultation")) <
        score_match x.description (normalize (cs "consultation")) ∨
      (score_match x.description (normalize (cs "consultation")) =
        score_match y.description (normalize (cs "consultation")) ∧
        x.base_price ≤ y.base_price)) :=
  find_services_ranking exRows (cs "General") (cs "consultation") (by decide)

/-! C6 — behaviour on empty/degenerate terms. -/

/-- C6 counterexample: with a single searchable general-category record,
`find_services` with the empty term returns the empty list, although the
ten-cheapest fetch of that category is non-empty — the claimed
"`N` cheapest records, no scoring" behaviour does not hold, because the
scoring loop still runs with the raw empty term and filters everything
out. -/
theorem find_services_empty_claim_false :
    find_services [exConsult] (cs "General") [] = [] ∧
    (emptyTermFetch [exConsult] (cs "General")).map toOut = [toOut exConsult] ∧
    ([] : List SvcOut) ≠ [toOut exConsult] := by
  exact ⟨by decide, by decide, by decide⟩

/-- C6 amended: an empty term yields the empty list (the cheapest-ten fetch
is still scored, against the raw empty term, so every record is filtered
out); a whitespace-only term yields a subset of the ten cheapest searchable
records of the resolved category (the fetch that `emptyTermFetch` performs,
which is sorted by ascending price, contains only searchable records of the
category, has length `min 10 count`, and is price-minimal among them); and
a term for which no record scores above zero yields the empty list rather
than an error. -/
theorem find_services_degenerate_terms (rows : List SvcRow) (category : List Char) :
    find_services rows category [] = [] ∧
    (∀ term, stripEmpty term = true →
      ∀ x ∈ find_services rows category term, x ∈ (emptyTermFetch rows category).map toOut) ∧
    (∀ x ∈ emptyTermFetch rows category, x ∈ searchableIn rows category) ∧
    (emptyTermFetch rows category).Pairwise priceRel ∧
    (emptyTermFetch rows category).length = min 10 (searchableIn rows category).length ∧
    (∀ x ∈ emptyTermFetch rows category, ∀ y ∈ searchableIn rows category,
      y ∉ emptyTermFetch rows category → x.base_price ≤ y.base_price) ∧
    (∀ term, stripEmpty term = false →
      (∀ r ∈ rows, score_match r.description (normalize term) = 0) →
      find_services rows category term = []) := by
  refine ⟨?_, ?_, ?_, ?_, ?_, ?_, ?_⟩
  · unfold find_services
    rw [if_pos (show stripEmpty ([] : List Char) = true by decide)]
    exact rankScored_eq_nil (fun r _ => by simp [score_match])
  · intro term hterm x hx
    unfold find_services at hx
    rw [if_pos (by simp [hterm])] at hx
    rcases mem_rankScored hx with ⟨r, hr, rfl, _⟩
    exact List.mem_map_of_mem _ hr
  · intro x hx
    unfold emptyTermFetch at hx
    exact (List.perm_insertionSort priceRel _).subset (List.take_subset _ _ hx)
  · unfold emptyTermFetch
    exact (List.sorted_insertionSort priceRel _).sublist (List.take_sublist 10 _)
  · unfold emptyTermFetch
    rw [List.length_take,
      (List.perm_insertionSort priceRel (searchableIn rows category)).length_eq]
  · intro x hx y hy hyn
    unfold emptyTermFetch at hx hyn
    have hsorted : (List.insertionSort priceRel (searchableIn rows category)).Pairwise priceRel :=
      List.sorted_insertionSort priceRel _
    have hyL : y ∈ List.insertionSort priceRel (searchableIn rows category) :=
      (List.perm_insertionSort priceRel _).mem_iff.mpr hy
    rw [← List.take_append_drop 10 (List.insertionSort priceRel (searchableIn rows category))]
      at hsorted hyL
    have hyd : y ∈ (List.insertionSort priceRel (searchableIn rows category)).drop 10 := by
      rcases List.mem_append.mp hyL with h | h
      · exact absurd h hyn
      · exact h
    exact (List.pairwise_append.mp hsorted).2.2 x hx y hyd
  · intro term hterm hzero
    unfold find_services
    rw [if_neg (by simp [hterm])]
    refine rankScored_eq_nil ?_
    intro r hr
    unfold candidateFetch at hr
    have hr2 := List.mem_filter.mp hr
    have hr3 := List.mem_filter.mp hr2.1
    exact hzero r hr3.1

/-- C6 witness: the amended behaviour evaluated at a concrete catalog — the
empty term, a whitespace-only term and a term that matches nothing. -/
theorem find_services_degenerate_terms_witness :
    find_services [exConsult] (cs "General") [] = [] ∧
    (∀ x ∈ find_services [exConsult] (cs "General") (cs " "),
      x ∈ (emptyTermFetch [exConsult] (cs "General")).map toOut) ∧
    find_services [exLong] (cs "General") (cs "zzz") = [] := by
  obtain ⟨h1, h2, _, _, _, _, _⟩ := find_services_degenerate_terms [exConsult] (cs "General")
  obtain ⟨_, _, _, _, _, _, h7⟩ := find_services_degenerate_terms [exLong] (cs "General")
  exact ⟨h1, h2 (cs " ") (by decide), h7 (cs "zzz") (by decide) (by decide)⟩

/-! C7 — synonym pairs are identified by normalization. -/

/-- C7: `normalize` maps both members of the recognized synonym pairs
`"xray"`/`"x-ray"` and `"ultra sound"`/`"ultrasound"` to the same
normalized term, and consequently `find_services` returns identical (hence
overlapping whenever non-empty) candidate lists for the two members of each
pair, on every catalog and category. -/
theorem synonym_invariance :
    normalize (cs "xray") = normalize (cs "x-ray") ∧
    normalize (cs "ultra sound") = normalize (cs "ultrasound") ∧
    ∀ (rows : List SvcRow) (category : List Char),
      find_services rows category (cs "xray") = find_services rows category (cs "x-ray") ∧
      find_services rows category (cs "ultra sound") =
        find_services rows category (cs "ultrasound") := by
  refine ⟨by decide, by decide, fun rows category => ⟨?_, ?_⟩⟩
  · unfold find_services
    rw [if_neg (by decide), if_neg (by decide)]
    have h : normalize (cs "xray") = normalize (cs "x-ray") := by decide
    rw [h]
  · unfold find_services
    rw [if_neg (by decide), if_neg (by decide)]
    have h : normalize (cs "ultra sound") = normalize (cs "ultrasound") := by decide
    rw [h]

/-! C4 — price ranges over existing tiers. -/

/-- The fold with `min` lands on a member of the list. -/
lemma foldlMin_mem : ∀ (ps : List ℚ) (p : ℚ), ps.foldl min p ∈ p :: ps := by
  intro ps
  induction ps with
  | nil => intro p; simp
  | cons a t ih =>
      intro p
      rw [List.foldl_cons]
      have h := ih (min p a)
      rcases List.mem_cons.mp h with h | h
      · rw [h]
        rcases min_choice p a with hm | hm
        · rw [hm]; exact List.mem_cons_self _ _
        · rw [hm]; exact List.mem_cons_of_mem _ (List.mem_cons_self _ _)
      · exact List.mem_cons_of_mem _ (List.mem_cons_of_mem _ h)

/-- The fold with `min` is a lower bound of the list. -/
lemma foldlMin_le : ∀ (ps : List ℚ) (p q : ℚ), q ∈ p :: ps → ps.foldl min p ≤ q := by
  intro ps
  induction ps with
  | nil =>
      intro p q h
      rw [List.mem_singleton.mp h]
      exact le_refl _
  | cons a t ih =>
      intro p q h
      rw [List.foldl_cons]
      rcases List.mem_cons.mp h with h1 | h2
      · rw [h1]
        exact le_trans (ih (min p a) (min p a) (List.mem_cons_self _ _)) (min_le_left p a)
      · rcases List.mem_cons.mp h2 with h1 | h3
        · rw [h1]
          exact le_trans (ih (min p a) (min p a) (List.mem_cons_self _ _)) (min_le_right p a)
        · exact ih (min p a) q (List.mem_cons_of_mem _ h3)

/-- The fold with `max` lands on a member of the list. -/
lemma foldlMax_mem : ∀ (ps : List ℚ) (p : ℚ), ps.foldl max p ∈ p :: ps := by
  intro ps
  induction ps with
  | nil => intro p; simp
  | cons a t ih =>
      intro p
      rw [List.foldl_cons]
      have h := ih (max p a)
      rcases List.mem_cons.mp h with h | h
      · rw [h]
        rcases max_choice p a with hm | hm
        · rw [hm]; exact List.mem_cons_self _ _
        · rw [hm]; exact List.mem_cons_of_mem _ (List.mem_cons_self _ _)
      · exact List.mem_cons_of_mem _ (List.mem_cons_of_mem _ h)

/-- The fold with `max` is an upper bound of the list. -/
lemma foldlMax_le : ∀ (ps : List ℚ) (p q : ℚ), q ∈ p :: ps → q ≤ ps.foldl max p := by
  intro ps
  induction ps with
  | nil =>
      intro p q h
      rw [List.mem_singleton.mp h]
      exact le_refl _
  | cons a t ih =>
      intro p q h
      rw [List.foldl_cons]
      rcases List.mem_cons.mp h with h1 | h2
      · rw [h1]
        exact le_trans (le_max_left p a) (ih (max p a) (max p a) (List.mem_cons_self _ _))
      · rcases List.mem_cons.mp h2 with h1 | h3
        · rw [h1]
          exact le_trans (le_max_right p a) (ih (max p a) (max p a) (List.mem_cons_self _ _))
        · exact ih (max p a) q (List.mem_cons_of_mem _ h3)

/-- Membership distributes over `concatMapL`. -/
lemma mem_concatMapL {α β : Type} (f : α → List β) :
    ∀ (l : List α) (b : β), b ∈ concatMapL f l ↔ ∃ a ∈ l, b ∈ f a := by
  intro l
  induction l with
  | nil => intro b; simp [concatMapL]
  | cons a t ih =>
      intro b
      unfold concatMapL
      rw [List.mem_append]
      constructor
      · rintro (h | h)
        · exact ⟨a, List.mem_cons_self _ _, h⟩
        · rcases (ih b).mp h with ⟨a', ha', hb⟩
          exact ⟨a', List.mem_cons_of_mem _ ha', hb⟩
      · rintro ⟨a', ha', hb⟩
        rcases List.mem_cons.mp ha' with rfl | ha'
        · exact Or.inl hb
        · exact Or.inr ((ih b).mpr ⟨a', ha', hb⟩)

/-- C4: the price range of every match produced by
`find_matching_services` is the minimum and the maximum over the prices of
exactly the tier variants that exist for that base description — both
bounds are prices of existing tiers, so an absent tier is skipped and never
contributes a zero. -/
theorem tier_price_range (rows : List SvcRow) (terms : List (List Char)) (m : TierMatch)
    (hm : m ∈ find_matching_services rows terms) :
    ∃ mn mx, matchMinMax m = some (mn, mx) ∧
      mn ∈ m.tiers.map (fun t => t.2.base_price) ∧
      mx ∈ m.tiers.map (fun t => t.2.base_price) ∧
      ∀ p ∈ m.tiers.map (fun t => t.2.base_price), mn ≤ p ∧ p ≤ mx := by
  have htiers : m.tiers ≠ [] := by
    rcases (mem_concatMapL _ terms m).mp hm with ⟨term, _, hmem⟩
    rcases List.mem_filterMap.mp hmem with ⟨bc, _, hmk⟩
    unfold mkMatch at hmk
    by_cases h : (tiersFor rows bc.1).isEmpty
    · rw [if_pos h] at hmk
      cases hmk
    · rw [if_neg h] at hmk
      cases hmk
      simpa [List.isEmpty_iff] using h
  cases hp : m.tiers.map (fun t => t.2.base_price) with
  | nil => exact absurd (List.map_eq_nil_iff.mp hp) htiers
  | cons p ps =>
      refine ⟨ps.foldl min p, ps.foldl max p, ?_, ?_, ?_, ?_⟩
      · unfold matchMinMax
        rw [hp]
      · exact foldlMin_mem ps p
      · exact foldlMax_mem ps p
      · intro q hq
        exact ⟨foldlMin_le ps p q hq, foldlMax_le ps p q hq⟩

/-- C4 witness: the claim's end-to-end example — with exactly the variants
`BT-K` at 200 and `BT-Nk` at 350, the computed price range is `(200, 350)`
over the two existing tiers. -/
theorem tier_price_range_witness :
    btMatch ∈ find_matching_services btRows [cs "blood test"] ∧
    matchMinMax btMatch = some (200, 350) ∧
    ∃ mn mx, matchMinMax btMatch = some (mn, mx) ∧
      mn ∈ btMatch.tiers.map (fun t => t.2.base_price) ∧
      mx ∈ btMatch.tiers.map (fun t => t.2.base_price) ∧
      ∀ p ∈ btMatch.tiers.map (fun t => t.2.base_price), mn ≤ p ∧ p ≤ mx :=
  ⟨by decide, by decide,
    tier_price_range btRows [cs "blood test"] btMatch (by decide)⟩

/-! Facts about the similarity loop of the query cache. -/

/-- Jaccard similarity against the empty token set is zero. -/
lemma simQ_empty_right (qs : Finset (List Char)) : simQ qs ∅ = 0 := by
  unfold simQ
  simp

/-- Jaccard similarity of the empty token set is zero. -/
lemma simQ_empty_left (ks : Finset (List Char)) : simQ ∅ ks = 0 := by
  unfold simQ
  simp

/-- A key occurring in the cache has a value. -/
lemma lookupL_isSome_of_mem {α : Type} (cache : List (List Char × α)) (k : List Char)
    (hk : k ∈ cache.map Prod.fst) : (lookupL cache k).isSome = true := by
  induction cache with
  | nil => simp at hk
  | cons hd tl ih =>
      obtain ⟨k0, v0⟩ := hd
      rcases List.mem_cons.mp hk with h | h
      · unfold lookupL
        rw [if_pos h.symm]
        rfl
      · unfold lookupL
        by_cases he : k0 = k
        · rw [if_pos he]
          rfl
        · rw [if_neg he]
          exact ih h

/-- Invariant of the similarity loop: an `ok none` outcome means the best
candidate never changed and every key scored at most the running bound; an
`ok (some k)` outcome means either `k` was the incoming best and nothing
beat the bound, or `k` is a key that beat the bound and dominates every
key of the list. -/
lemma findSimilarLoop_ok_spec {α : Type} (qs : Finset (List Char)) :
    ∀ (l : List (List Char × α)) (bs : ℚ) (best : Option (List Char)),
      (findSimilarLoop qs l bs best = .ok none →
        best = none ∧ ∀ p ∈ l, simQ qs (tokenSet p.1) ≤ bs) ∧
      (∀ k, findSimilarLoop qs l bs best = .ok (some k) →
        (best = some k ∧ ∀ p ∈ l, simQ qs (tokenSet p.1) ≤ bs) ∨
        (k ∈ l.map Prod.fst ∧ bs < simQ qs (tokenSet k) ∧
          ∀ p ∈ l, simQ qs (tokenSet p.1) ≤ simQ qs (tokenSet k))) := by
  intro l
  induction l with
  | nil =>
      intro bs best
      constructor
      · intro h
        cases h
        exact ⟨rfl, by simp⟩
      · intro k h
        cases h
        exact Or.inl ⟨rfl, by simp⟩
  | cons hd tl ih =>
      intro bs best
      obtain ⟨k0, v0⟩ := hd
      by_cases hU : qs ∪ tokenSet k0 = ∅
      · constructor
        · intro h
          unfold findSimilarLoop at h
          rw [if_pos hU] at h
          cases h
        · intro k h
          unfold findSimilarLoop at h
          rw [if_pos hU] at h
          cases h
      · by_cases hS : bs < simQ qs (tokenSet k0)
        · constructor
          · intro h
            unfold findSimilarLoop at h
            rw [if_neg hU, if_pos hS] at h
            have hib := ((ih _ _).1 h).1
            cases hib
          · intro k h
            unfold findSimilarLoop at h
            rw [if_neg hU, if_pos hS] at h
            rcases (ih _ _).2 k h with ⟨hbk, hall⟩ | ⟨hmem, hgt, hall⟩
            · have hk0 : k0 = k := Option.some.inj hbk
              right
              refine ⟨by rw [List.map_cons, ← hk0]; exact List.mem_cons_self _ _, by rw [← hk0]; exact hS, ?_⟩
              intro p hp
              rcases List.mem_cons.mp hp with h1 | h1
              · rw [h1, ← hk0]
              · rw [← hk0]
                exact hall p h1
            · right
              refine ⟨by rw [List.map_cons]; exact List.mem_cons_of_mem _ hmem,
                lt_trans hS hgt, ?_⟩
              intro p hp
              rcases List.mem_cons.mp hp with h1 | h1
              · rw [h1]
                exact le_of_lt hgt
              · exact hall p h1
        · constructor
          · intro h
            unfold findSimilarLoop at h
            rw [if_neg hU, if_neg hS] at h
            obtain ⟨hb, hall⟩ := (ih _ _).1 h
            refine ⟨hb, ?_⟩
            intro p hp
            rcases List.mem_cons.mp hp with h1 | h1
            · rw [h1]
              exact not_lt.mp hS
            · exact hall p h1
          · intro k h
            unfold findSimilarLoop at h
            rw [if_neg hU, if_neg hS] at h
            rcases (ih _ _).2 k h with ⟨hb, hall⟩ | ⟨hmem, hgt, hall⟩
            · left
              refine ⟨hb, ?_⟩
              intro p hp
              rcases List.mem_cons.mp hp with h1 | h1
              · rw [h1]
                exact not_lt.mp hS
              · exact hall p h1
            · right
              refine ⟨by rw [List.map_cons]; exact List.mem_cons_of_mem _ hmem, hgt, ?_⟩
              intro p hp
              rcases List.mem_cons.mp hp with h1 | h1
              · rw [h1]
                exact le_of_lt (lt_of_le_of_lt (not_lt.mp hS) hgt)
              · exact hall p h1

/-- With a non-empty query token set every union is non-empty, so the
similarity loop never raises. -/
lemma findSimilarLoop_ok_of_ne {α : Type} (qs : Finset (List Char)) (hqs : qs ≠ ∅) :
    ∀ (l : List (List Char × α)) (bs : ℚ) (best : Option (List Char)),
      findSimilarLoop qs l bs best ≠ .error () := by
  intro l
  induction l with
  | nil =>
      intro bs best h
      cases h
  | cons hd tl ih =>
      intro bs best h
      obtain ⟨k0, v0⟩ := hd
      have hU : qs ∪ tokenSet k0 ≠ ∅ := by
        intro hc
        exact hqs (Finset.union_eq_empty.mp hc).1
      unfold findSimilarLoop at h
      rw [if_neg hU] at h
      by_cases hS : bs < simQ qs (tokenSet k0)
      · rw [if_pos hS] at h
        exact ih _ _ h
      · rw [if_neg hS] at h
        exact ih _ _ h

/-- With an empty query token set, the loop raises as soon as it reaches a
key whose token set is also empty (the running bound stays non-negative, so
a zero similarity never updates it). -/
lemma findSimilarLoop_error_of_empty {α : Type} :
    ∀ (l : List (List Char × α)) (bs : ℚ) (best : Option (List Char)), (0 : ℚ) ≤ bs →
      (∃ p ∈ l, tokenSet p.1 = ∅) →
      findSimilarLoop ∅ l bs best = .error () := by
  intro l
  induction l with
  | nil =>
      rintro bs best _ ⟨p, hp, _⟩
      simp at hp
  | cons hd tl ih =>
      rintro bs best hbs ⟨p, hp, hpe⟩
      obtain ⟨k0, v0⟩ := hd
      by_cases hk : tokenSet k0 = ∅
      · unfold findSimilarLoop
        rw [if_pos (by rw [hk]; simp)]
      · have hU : (∅ : Finset (List Char)) ∪ tokenSet k0 ≠ ∅ := by
          simpa using hk
        unfold findSimilarLoop
        rw [if_neg hU, if_neg (by rw [simQ_empty_left]; exact not_lt.mpr hbs)]
        apply ih _ _ hbs
        rcases List.mem_cons.mp hp with h1 | h1
        · rw [h1] at hpe
          exact absurd hpe hk
        · exact ⟨p, h1, hpe⟩

/-- A run of word characters keeps the scanner's output non-empty once the
accumulator is non-empty. -/
lemma splitRunsAux_ne_nil_of_cur (p : Char → Bool) :
    ∀ (s cur : List Char), cur ≠ [] → splitRunsAux p cur s ≠ [] := by
  intro s
  induction s with
  | nil =>
      intro cur hc
      unfold splitRunsAux
      rw [if_neg (by simpa [List.isEmpty_iff] using hc)]
      simp
  | cons c t ih =>
      intro cur hc
      unfold splitRunsAux
      by_cases hpc : p c
      · rw [if_pos hpc]
        exact ih _ (by simp)
      · rw [if_neg hpc, if_neg (by simpa [List.isEmpty_iff] using hc)]
        simp

/-- If some character of the subject satisfies `p`, the run scanner finds a
token. -/
lemma splitRunsAux_ne_nil (p : Char → Bool) :
    ∀ (s cur : List Char), (∃ c ∈ s, p c = true) → splitRunsAux p cur s ≠ [] := by
  intro s
  induction s with
  | nil =>
      rintro cur ⟨c, hc, _⟩
      simp at hc
  | cons c t ih =>
      rintro cur ⟨d, hd, hpd⟩
      unfold splitRunsAux
      by_cases hpc : p c
      · rw [if_pos hpc]
        exact splitRunsAux_ne_nil_of_cur p t (c :: cur) (by simp)
      · rw [if_neg hpc]
        have hdt : d ∈ t := by
          rcases List.mem_cons.mp hd with h1 | h1
          · rw [h1] at hpd
            exact absurd hpd hpc
          · exact h1
        by_cases hcur : cur.isEmpty
        · rw [if_pos hcur]
          exact ih [] ⟨d, hdt, hpd⟩
        · rw [if_neg hcur]
          simp

/-- A query whose lowered text contains an alphanumeric character has a
non-empty token set. -/
lemma tokenSet_ne_empty_of_alnum {q : List Char}
    (h : ∃ c ∈ lowerL q, c.isAlphanum = true) : tokenSet q ≠ ∅ := by
  unfold tokenSet
  intro hc
  rcases h with ⟨c, hcq, hca⟩
  have h1 : splitRuns isWordChar (lowerL q) ≠ [] := by
    unfold splitRuns
    apply splitRunsAux_ne_nil
    exact ⟨c, hcq, by unfold isWordChar; rw [hca]; rfl⟩
  exact h1 (by simpa using hc)

/-! C2 — the cache lookup discipline. -/

/-- C2 counterexample: the cache holds the single raw key
`"investigation x-ray"`. On the query `"xray"`, whose normalization is
exactly that key, the claimed normalized exact match hits, but the code —
which exact-matches the raw query and then compares token sets
`{xray}` vs `{investigation, x, ray}` (Jaccard 0) — misses. -/
theorem cache_get_claim_false :
    specNormalizedGet [(cs "investigation x-ray", (0 : ℕ))] (cs "xray") = some 0 ∧
    analyzeQueryCached [(cs "investigation x-ray", (0 : ℕ))] (cs "xray") = .ok none := by
  exact ⟨by decide, by decide⟩

/-- C2 amended: for a query with a non-empty token set, the cache get first
tries an exact match on the raw query (returning that entry on a hit); on
an exact miss it compares the query's token set with every cached key's by
Jaccard similarity and returns the entry of a key of maximal similarity
when that similarity exceeds 0.5, reporting a miss otherwise. -/
theorem cache_get_characterization {α : Type} (cache : List (List Char × α)) (q : List Char)
    (hq : tokenSet q ≠ ∅) :
    (∀ a, lookupL cache q = some a → analyzeQueryCached cache q = .ok (some a)) ∧
    (lookupL cache q = none →
      (analyzeQueryCached cache q = .ok none →
        ∀ p ∈ cache, simQ (tokenSet q) (tokenSet p.1) ≤ simThreshold) ∧
      (∀ a, analyzeQueryCached cache q = .ok (some a) →
        ∃ k ∈ cache.map Prod.fst, simThreshold < simQ (tokenSet q) (tokenSet k) ∧
          (∀ p ∈ cache, simQ (tokenSet q) (tokenSet p.1) ≤ simQ (tokenSet q) (tokenSet k)) ∧
          lookupL cache k = some a)) := by
  have hqe : q ≠ [] := by
    intro h
    apply hq
    rw [h]
    rfl
  constructor
  · intro a ha
    unfold analyzeQueryCached
    rw [ha]
    simp [hqe, ha]
  · intro hnone
    have hred : analyzeQueryCached cache q =
        match findSimilarLoop (tokenSet q) cache simThreshold none with
        | .error e => .error e
        | .ok none => .ok none
        | .ok (some k) => .ok (if k = [] then none else lookupL cache k) := by
      unfold analyzeQueryCached findSimilarQuery
      rw [hnone]
      rfl
    constructor
    · intro hok p hp
      cases hcase : findSimilarLoop (tokenSet q) cache simThreshold none with
      | error e =>
          have hval : analyzeQueryCached cache q = .error e := by
            rw [hred, hcase]
          rw [hval] at hok
          cases hok
      | ok o =>
          cases o with
          | none =>
              exact ((findSimilarLoop_ok_spec (tokenSet q) cache simThreshold none).1 hcase).2 p hp
          | some k =>
              have hval : analyzeQueryCached cache q =
                  .ok (if k = [] then none else lookupL cache k) := by
                rw [hred, hcase]
              rw [hval] at hok
              rcases (findSimilarLoop_ok_spec (tokenSet q) cache simThreshold none).2 k hcase with
                ⟨hb, _⟩ | ⟨hmem, hgt, _⟩
              · cases hb
              · have hk : k ≠ [] := by
                  intro hke
                  rw [hke, show tokenSet ([] : List Char) = ∅ from rfl,
                    simQ_empty_right] at hgt
                  exact absurd hgt (by decide)
                rw [if_neg hk] at hok
                have hl := Except.ok.inj hok
                have hsome := lookupL_isSome_of_mem cache k hmem
                rw [hl] at hsome
                cases hsome
    · intro a hok
      cases hcase : findSimilarLoop (tokenSet q) cache simThreshold none with
      | error e =>
          have hval : analyzeQueryCached cache q = .error e := by
            rw [hred, hcase]
          rw [hval] at hok
          cases hok
      | ok o =>
          cases o with
          | none =>
              have hval : analyzeQueryCached cache q = .ok none := by
                rw [hred, hcase]
              rw [hval] at hok
              cases Except.ok.inj hok
          | some k =>
              have hval : analyzeQueryCached cache q =
                  .ok (if k = [] then none else lookupL cache k) := by
                rw [hred, hcase]
              rw [hval] at hok
              rcases (findSimilarLoop_ok_spec (tokenSet q) cache simThreshold none).2 k hcase with
                ⟨hb, _⟩ | ⟨hmem, hgt, hall⟩
              · cases hb
              · have hk : k ≠ [] := by
                  intro hke
                  rw [hke, show tokenSet ([] : List Char) = ∅ from rfl,
                    simQ_empty_right] at hgt
                  exact absurd hgt (by decide)
                rw [if_neg hk] at hok
                exact ⟨k, hmem, hgt, hall, Except.ok.inj hok⟩

/-- C2 witness: the amended lookup discipline evaluated on a one-entry
cache — the reordered query `"pain chest"` resolves to the entry cached
under `"chest pain"` (Jaccard similarity 1 over identical token sets). -/
theorem cache_get_characterization_witness :
    (∀ a, lookupL [(cs "chest pain", (7 : ℕ))] (cs "pain chest") = some a →
      analyzeQueryCached [(cs "chest pain", (7 : ℕ))] (cs "pain chest") = .ok (some a)) ∧
    (lookupL [(cs "chest pain", (7 : ℕ))] (cs "pain chest") = none →
      (analyzeQueryCached [(cs "chest pain", (7 : ℕ))] (cs "pain chest") = .ok none →
        ∀ p ∈ [(cs "chest pain", (7 : ℕ))],
          simQ (tokenSet (cs "pain chest")) (tokenSet p.1) ≤ simThreshold) ∧
      (∀ a, analyzeQueryCached [(cs "chest pain", (7 : ℕ))] (cs "pain chest") = .ok (some a) →
        ∃ k ∈ [(cs "chest pain", (7 : ℕ))].map Prod.fst,
          simThreshold < simQ (tokenSet (cs "pain chest")) (tokenSet k) ∧
          (∀ p ∈ [(cs "chest pain", (7 : ℕ))],
            simQ (tokenSet (cs "pain chest")) (tokenSet p.1) ≤
              simQ (tokenSet (cs "pain chest")) (tokenSet k)) ∧
          lookupL [(cs "chest pain", (7 : ℕ))] k = some a)) :=
  cache_get_characterization [(cs "chest pain", (7 : ℕ))] (cs "pain chest") (by decide)

/-! C10 — totality of the similarity lookup. -/

/-- C10: the similarity lookup never divides by zero for a query whose
lowered text contains an alphanumeric character (its token set is then
non-empty, so every Jaccard denominator is non-empty); and when the query's
token set is empty and some cached key's token set is also empty, the
division-by-zero branch is reached and the lookup raises. -/
theorem jaccard_totality {α : Type} (cache : List (List Char × α)) (q : List Char) :
    ((∃ c ∈ lowerL q, c.isAlphanum = true) → findSimilarQuery cache q ≠ .error ()) ∧
    (tokenSet q = ∅ → (∃ p ∈ cache, tokenSet p.1 = ∅) →
      findSimilarQuery cache q = .error ()) := by
  constructor
  · intro h
    exact findSimilarLoop_ok_of_ne _ (tokenSet_ne_empty_of_alnum h) cache _ _
  · intro hqe hp
    unfold findSimilarQuery
    rw [hqe]
    exact findSimilarLoop_error_of_empty cache _ _ (by decide) hp

/-- C10 witness: a lettered query is safe against any key, and the query
`"!!!"` against the sole cached key `"???"` (both tokenless) raises. -/
theorem jaccard_totality_witness :
    findSimilarQuery [(cs "chest pain", (0 : ℕ))] (cs "ab") ≠ .error () ∧
    findSimilarQuery [(cs "???", (0 : ℕ))] (cs "!!!") = .error () :=
  ⟨(jaccard_totality [(cs "chest pain", (0 : ℕ))] (cs "ab")).1
      ⟨'a', by decide, by decide⟩,
    (jaccard_totality [(cs "???", (0 : ℕ))] (cs "!!!")).2 (by decide)
      ⟨(cs "???", (0 : ℕ)), by decide, by decide⟩⟩

/-! C8, C9 — the relationship graph. -/

/-- Folding edge insertion from any starting set just unions in the edges
built from scratch. -/
lemma foldl_buildStep_union (cache : List (List SvcEntry)) :
    ∀ R, List.foldl buildStep R cache = R ∪ buildRelationships cache := by
  induction cache with
  | nil =>
      intro R
      simp [buildRelationships, List.foldl_nil]
  | cons g t ih =>
      intro R
      rw [List.foldl_cons, ih (buildStep R g)]
      have h2 : buildRelationships (g :: t) = buildStep ∅ g ∪ buildRelationships t := by
        unfold buildRelationships
        rw [List.foldl_cons, ih (buildStep ∅ g)]
        rfl
      rw [h2]
      unfold buildStep
      rw [Finset.empty_union, Finset.union_assoc]

/-- C8: replaying the whole analysis cache a second time into the edge set
it already built changes nothing — the adjacency and the edge count are
exactly those of a single replay. -/
theorem relationship_replay_idempotent (cache : List (List SvcEntry)) :
    List.foldl buildStep (buildRelationships cache) cache = buildRelationships cache ∧
    (List.foldl buildStep (buildRelationships cache) cache).card =
      (buildRelationships cache).card := by
  have h := foldl_buildStep_union cache (buildRelationships cache)
  rw [Finset.union_self] at h
  exact ⟨h, by rw [h]⟩

/-- An edge is in the built relation iff some group contributes it. -/
lemma mem_buildRelationships (cache : List (List SvcEntry)) (p : List Char × List Char) :
    p ∈ buildRelationships cache ↔ ∃ g ∈ cache, p ∈ groupPairs g := by
  induction cache with
  | nil => simp [buildRelationships]
  | cons g t ih =>
      have h2 : buildRelationships (g :: t) = buildStep ∅ g ∪ buildRelationships t := by
        unfold buildRelationships
        rw [List.foldl_cons, foldl_buildStep_union t (buildStep ∅ g)]
        rfl
      rw [h2]
      unfold buildStep
      rw [Finset.empty_union, Finset.mem_union]
      constructor
      · rintro (h | h)
        · exact ⟨g, List.mem_cons_self _ _, h⟩
        · rcases ih.mp h with ⟨g', hg', hp⟩
          exact ⟨g', List.mem_cons_of_mem _ hg', hp⟩
      · rintro ⟨g', hg', hp⟩
        rcases List.mem_cons.mp hg' with h1 | h1
        · exact Or.inl (h1 ▸ hp)
        · exact Or.inr (ih.mpr ⟨g', h1, hp⟩)

/-- Membership in one group's contributed edges. -/
lemma mem_groupPairs (g : List SvcEntry) (a b : List Char) :
    (a, b) ∈ groupPairs g ↔ a ∈ groupCodes g ∧ b ∈ groupCodes g ∧ a ≠ b := by
  unfold groupPairs
  rw [Finset.mem_filter, Finset.mem_product]
  exact and_assoc

/-- C9: the related adjacency built from any analysis cache is symmetric —
`(a, b)` is an edge iff `(b, a)` is — and irreflexive: no code is related
to itself. -/
theorem relationship_symm_irrefl (cache : List (List SvcEntry)) (a b : List Char) :
    ((a, b) ∈ buildRelationships cache ↔ (b, a) ∈ buildRelationships cache) ∧
    (a, a) ∉ buildRelationships cache := by
  constructor
  · rw [mem_buildRelationships, mem_buildRelationships]
    constructor
    · rintro ⟨g, hg, hp⟩
      rcases (mem_groupPairs g a b).mp hp with ⟨ha, hb, hab⟩
      exact ⟨g, hg, (mem_groupPairs g b a).mpr ⟨hb, ha, fun h => hab h.symm⟩⟩
    · rintro ⟨g, hg, hp⟩
      rcases (mem_groupPairs g b a).mp hp with ⟨hb, ha, hba⟩
      exact ⟨g, hg, (mem_groupPairs g a b).mpr ⟨ha, hb, fun h => hba h.symm⟩⟩
  · rw [mem_buildRelationships]
    rintro ⟨g, _, hp⟩
    exact ((mem_groupPairs g a a).mp hp).2.2 rfl

/-! C3 — error propagation out of `search`. -/

/-- C3: the spec promises that no per-query error reaches the caller of
`search`, and that an external-analysis failure degrades to the fallback
analysis.  The second half holds: with an empty cache, a failing external
call yields exactly the fallback analysis and the pipeline continues.  The
first half is violated by the code: on the query `"!!!"` with the single
cached raw key `"???"` (both without word tokens), `_analyze_query` reaches
the unguarded Jaccard division of `_find_similar_query` with an empty union
and `search` raises `ZeroDivisionError` to its caller. -/
theorem search_error_propagates :
    searchModel [(cs "???", fallbackAnalysis)] ∅ [] (.ok fallbackAnalysis)
        (.ok (cs "care plan")) (cs "!!!") = .error () ∧
    analyzeQueryE [] (cs "headache") (.error ()) = .ok fallbackAnalysis := by
  exact ⟨by decide, by decide⟩

end Pharmiliar
